import Mathlib

/-!
Verification of the sdnctrlsim resource allocator, controller logic and
simulation scheduler (a shallow embedding of `src/sim/resource_allocator.py`,
`src/sim/controller.py` and `src/sim/simulation.py`).

The simulation graphs are `networkx.DiGraph`s whose directed edges carry a
fixed `capacity`, a mutable `used` load and optional per-view attributes
(`mylink`, `timestamp`, `sync_learned`).  We model a graph as a total function
from ordered node pairs to edge records; nodes are natural numbers and the
float quantities of the Python code are rationals.  The `heapq` min-heap of
active flows is modelled as a list kept sorted by release time (`hpush`
inserts in order, so the head is always a minimal element, which is the only
heap property the code relies on).  Python assertions become `Except.error`
results.
-/

/-- A directed edge record: `used` and `capacity` as in the simulation graph,
plus the per-controller-view attributes `mylink` (set by `learn_my_links`),
`timestamp` and `sync_learned` (written by the sync operations; absent keys
are `none`). -/
structure EdgeData where
  used : ℚ
  capacity : ℚ
  mylink : Bool
  timestamp : Option ℚ
  sync_learned : Option ℚ
deriving DecidableEq

/-- A graph is a total map from directed node pairs to edge records
(`graph.edge[u][v]` in the Python code). -/
def Graph : Type := ℕ × ℕ → EdgeData

/-- Pointwise update of a single directed edge record. -/
def updG (g : Graph) (k : ℕ × ℕ) (d : EdgeData) : Graph :=
  fun x => if x = k then d else g x

/-- An active-flow heap entry `(whenfree, path, resources)` exactly as pushed
by `allocate_resources`. -/
abbrev AFlow : Type := ℚ × List ℕ × ℚ

/-- Release time of a heap entry (`flow[0]` in the Python code). -/
def AFlow.time (f : AFlow) : ℚ := f.1

/-- Path of a heap entry. -/
def AFlow.path (f : AFlow) : List ℕ := f.2.1

/-- Size of a heap entry. -/
def AFlow.size (f : AFlow) : ℚ := f.2.2

/-- `links = zip(path[:-1], path[1:])`: the consecutive directed edges of a
path. -/
def linksOf (path : List ℕ) : List (ℕ × ℕ) := path.zip path.tail

/-- `heapq.heappush`: insert an entry into the heap.  We keep the list sorted
by release time (stable for ties), which realises the heap's guarantee that
the head is a minimal element. -/
def hpush (f : AFlow) : List AFlow → List AFlow
  | [] => [f]
  | g :: rest => if f.time < g.time then f :: g :: rest else g :: hpush f rest

/-- State of a `ResourceAllocator` (both the simulation and each controller
inherit it): the graph, the `active_flows` heap and the `last_now` attribute
maintained by `_update_last_now` (absent before the first call). -/
structure RAState where
  graph : Graph
  active_flows : List AFlow
  last_now : Option ℚ

/-- `_update_last_now` raises unless `last_now <= now` (or `last_now` is not
yet set). -/
def mono_ok : Option ℚ → ℚ → Bool
  | none, _ => true
  | some ln, now => decide (ln ≤ now)

/-- The capacity test of `allocate_resources`:
`edge['used'] + resources > edge['capacity']`. -/
def overFull (g : Graph) (resources : ℚ) (e : ℕ × ℕ) : Bool :=
  decide ((g e).used + resources > (g e).capacity)

/-- One step of the committing loop of `allocate_resources`:
`edge['used'] += resources`. -/
def addStep (resources : ℚ) (g : Graph) (e : ℕ × ℕ) : Graph :=
  updG g e { g e with used := (g e).used + resources }

/-- `ResourceAllocator.allocate_resources(path, resources, now, duration)`:
assert a non-empty `path` and a positive `duration`, enforce time
monotonicity, reject (returning early with no edge modified and nothing
pushed) if any edge of the path would be oversubscribed, otherwise add
`resources` to every traversed edge and push `(now + duration, path,
resources)` onto the heap. -/
def allocate_resources (st : RAState) (path : List ℕ) (resources now duration : ℚ) :
    Except String RAState :=
  if path.length = 0 then .error "assert len(path) failed"
  else if duration ≤ 0 then .error "assert duration failed"
  else if ¬ mono_ok st.last_now now then .error "time must progress monotonically"
  else
    let whenfree := now + duration
    let links := linksOf path
    if links.any (overFull st.graph resources) then
      .ok { st with last_now := some now }
    else
      .ok { graph := links.foldl (addStep resources) st.graph,
            active_flows := hpush (whenfree, path, resources) st.active_flows,
            last_now := some now }

/-- One step of the freeing loop of `free_resources`:
`edge['used'] = max(0.0, used - resources)`, warning (only) on over-free. -/
def subStep (resources : ℚ) (g : Graph) (e : ℕ × ℕ) : Graph :=
  updG g e { g e with used := max 0 ((g e).used - resources) }

/-- Free one expired flow: for each edge of its path set
`used = max(0.0, used - resources)`. -/
def freeFlow (g : Graph) (f : AFlow) : Graph :=
  (linksOf f.path).foldl (subStep f.size) g

/-- The guard of the while loop of `free_resources`:
`len(flowlist) > 0 and flowlist[0][0] <= now`. -/
def headExpired (fl : List AFlow) (now : ℚ) : Bool :=
  match fl with
  | [] => false
  | f :: _ => decide (f.time ≤ now)

/-- The while loop of `free_resources`: pop the heap head while it has
expired, freeing each popped flow's path. -/
def popExpired (now : ℚ) : List AFlow → Graph → Graph × List AFlow
  | [], g => (g, [])
  | f :: rest, g =>
      if f.time ≤ now then popExpired now rest (freeFlow g f) else (g, f :: rest)

/-- `ResourceAllocator.free_resources(now)`: raise if time regressed while an
expired flow is pending (the explicit `AssertionError` of the code) or if
`last_now > now` (`_update_last_now`); otherwise record `now` and pop every
expired flow from the head of the heap. -/
def free_resources (st : RAState) (now : ℚ) : Except String RAState :=
  if (match st.last_now with
      | some ln => decide (ln ≥ now) && headExpired st.active_flows now
      | none => false) then
    .error "AssertionError: flowlist head expired in the past"
  else if ¬ mono_ok st.last_now now then .error "time must progress monotonically"
  else
    let r := popExpired now st.active_flows st.graph
    .ok { graph := r.1, active_flows := r.2, last_now := some now }

/-- One edge of `LinkBalancerCtrl.sync_toward`: write this controller's
`used` and the `timestamp` into the peer's view unless the peer marks the
edge as its own (`dstctrl.graph[u][v].get('mylink')`). -/
def syncStep (srcg : Graph) (ts : Option ℚ) (g : Graph) (e : ℕ × ℕ) : Graph :=
  if (g e).mylink then g
  else updG g e { g e with used := (srcg e).used, timestamp := ts }

/-- `LinkBalancerCtrl.sync_toward(dstctrl, specificedges, timestep)`:
push `used` for each shared edge into the destination view (`edges` is
`specificedges` when given, the source's `mylinks` list otherwise). -/
def sync_toward (srcg dstg : Graph) (edges : List (ℕ × ℕ)) (ts : Option ℚ) : Graph :=
  edges.foldl (syncStep srcg ts) dstg

/-- One edge of `SeparateStateLinkBalancerCtrl.sync_toward`: identical to the
base variant except that the pushed value lands in `sync_learned`. -/
def ssSyncStep (srcg : Graph) (ts : Option ℚ) (g : Graph) (e : ℕ × ℕ) : Graph :=
  if (g e).mylink then g
  else updG g e { g e with sync_learned := some (srcg e).used, timestamp := ts }

/-- `SeparateStateLinkBalancerCtrl.sync_toward`. -/
def ss_sync_toward (srcg dstg : Graph) (edges : List (ℕ × ℕ)) (ts : Option ℚ) : Graph :=
  edges.foldl (ssSyncStep srcg ts) dstg

/-- The link metric of `compute_path_metric`:
`(used + util) / capacity` of one edge of the controller view. -/
def linkMetric (g : Graph) (util : ℚ) (e : ℕ × ℕ) : ℚ :=
  ((g e).used + util) / (g e).capacity

/-- The metric-collecting loop of `compute_path_metric`: append each link
metric, but break out of the loop as soon as one exceeds 1. -/
def collectMetrics (g : Graph) (util : ℚ) : List (ℕ × ℕ) → List ℚ
  | [] => []
  | e :: rest =>
      let lm := linkMetric g util e
      if 1 < lm then [] else lm :: collectMetrics g util rest

/-- `LinkBalancerCtrl.compute_path_metric(sw, path, util, time_now)`:
`pathmetric` starts at 1 and becomes `max(linkmetrics)` when the collected
list is non-empty; the returned pair is `(pathmetric, len(links))`. -/
def compute_path_metric (g : Graph) (path : List ℕ) (util : ℚ) : ℚ × ℕ :=
  let links := linksOf path
  (match collectMetrics g util links with
   | [] => (1 : ℚ)
   | m :: rest => rest.foldl max m,
   links.length)

/-- One iteration of the loop of `LinkBalancerCtrl.find_best_path`: install
the path as the running best if no best exists yet, if its metric is
strictly smaller, or if the metric ties and its length is strictly
smaller. -/
def fbpStep (g : Graph) (util : ℚ) (acc : Option (List ℕ × ℚ × ℕ)) (path : List ℕ) :
    Option (List ℕ × ℚ × ℕ) :=
  let pm := compute_path_metric g path util
  match acc with
  | none => some (path, pm)
  | some b =>
      if pm.1 < b.2.1 then some (path, pm)
      else if pm.1 = b.2.1 ∧ pm.2 < b.2.2 then some (path, pm)
      else some b

/-- `LinkBalancerCtrl.find_best_path(paths, sw, util, duration, time_now)`:
fold the selection loop over the candidate list and return
`(bestpath, bestpathmetric)` (or `None` when there was no candidate). -/
def find_best_path (g : Graph) (paths : List (List ℕ)) (util : ℚ) :
    Option (List ℕ × ℚ) :=
  match paths.foldl (fbpStep g util) none with
  | none => none
  | some b => some (b.1, b.2.1)

/-- A controller: its `ResourceAllocator` state (private graph view,
active-flow heap, `last_now`) together with the static routing
`get_srv_paths` (one shortest path per known server, a fixed function of the
topology — `nx.shortest_path` on the static graph). -/
structure Ctrl where
  ra : RAState
  srv_paths : ℕ → List (List ℕ)

/-- `LinkBalancerCtrl.handle_request(sw, util, duration, time_now)`: take
every server path for the ingress switch, pick the best one, allocate it in
the controller's own view when non-empty, and return it.  A `None` best path
(empty candidate list) or a failed allocator assertion is a raised Python
exception, modelled as an error. -/
def LB_handle_request (c : Ctrl) (sw : ℕ) (util duration time_now : ℚ) :
    Except String (Ctrl × List ℕ) :=
  let paths := c.srv_paths sw
  match find_best_path c.ra.graph paths util with
  | none => .error "cannot unpack None"
  | some bp =>
      if 0 < bp.1.length then
        match allocate_resources c.ra bp.1 util time_now duration with
        | .ok ra2 => .ok ({ c with ra := ra2 }, bp.1)
        | .error e => .error e
      else .ok (c, bp.1)

/-- `RandomChoiceCtrl.handle_request(sw, util, duration, time_now)`: return
`choice(paths)`.  The random draw is modelled by an oracle index `k`; the
element picked is `paths[k % len(paths)]`. -/
def RC_handle_request (c : Ctrl) (sw : ℕ) (k : ℕ) : Ctrl × List ℕ :=
  let paths := c.srv_paths sw
  (c, paths.getD (k % paths.length) [])

/-- Python float modulo `a % b` for `b > 0`: `a - b * floor(a / b)`. -/
def pymod (a b : ℚ) : ℚ := a - b * ⌊a / b⌋

/-- The sync-policy check of `LinkBalancerSim.run` (the body of the arrival
loop): with `time_elapsed_since_sync = arr_time - last_sync`, a sync round
runs iff `sync_period` is not `None` and the elapsed time reaches it;
`last_sync` is then advanced phase-preservingly, but only when
`sync_period > 0`.  Returns (round runs?, new `last_sync`). -/
def sync_check (sync_period : Option ℚ) (last_sync arr_time : ℚ) : Bool × ℚ :=
  let elapsed := arr_time - last_sync
  match sync_period with
  | none => (false, last_sync)
  | some sp =>
      if sp ≤ elapsed then
        (true, if 0 < sp then arr_time - pymod elapsed sp else last_sync)
      else (false, last_sync)

/-- The inner sum of `LinkBalancerSim.rmse_links` over the `(capacity,
used)` pairs of the edges: `sum of abs(used - opt_used) ** 2` with
`opt_used = (used_total / cap_total) * capacity`. -/
def rmse_links_sq (pairs : List (ℚ × ℚ)) : ℚ :=
  let cap_total : ℚ := (pairs.map Prod.fst).sum
  let used_total : ℚ := (pairs.map Prod.snd).sum
  (pairs.map (fun cu => |cu.2 - used_total / cap_total * cu.1| ^ 2)).sum

/-- `LinkBalancerSim.rmse_links(graph)`: `sqrt(sum(values))` over the edge
pairs of the graph. -/
noncomputable def rmse_links (pairs : List (ℚ × ℚ)) : ℝ :=
  Real.sqrt ((rmse_links_sq pairs : ℚ) : ℝ)

/-! ### Pointwise characterisation of the sync operations -/

lemma syncStep_apply (srcg : Graph) (ts : Option ℚ) (g : Graph) (e k : ℕ × ℕ) :
    syncStep srcg ts g e k =
      if k = e ∧ (g e).mylink = false then
        { g k with used := (srcg k).used, timestamp := ts }
      else g k := by
  unfold syncStep updG
  by_cases hm : (g e).mylink = true
  · simp [hm]
  · simp only [Bool.not_eq_true] at hm
    by_cases hk : k = e
    · subst hk; simp [hm]
    · simp [hm, hk]

lemma ssSyncStep_apply (srcg : Graph) (ts : Option ℚ) (g : Graph) (e k : ℕ × ℕ) :
    ssSyncStep srcg ts g e k =
      if k = e ∧ (g e).mylink = false then
        { g k with sync_learned := some (srcg k).used, timestamp := ts }
      else g k := by
  unfold ssSyncStep updG
  by_cases hm : (g e).mylink = true
  · simp [hm]
  · simp only [Bool.not_eq_true] at hm
    by_cases hk : k = e
    · subst hk; simp [hm]
    · simp [hm, hk]

lemma sync_toward_apply (srcg : Graph) (ts : Option ℚ) :
    ∀ (edges : List (ℕ × ℕ)) (g : Graph) (k : ℕ × ℕ),
      sync_toward srcg g edges ts k =
        if (g k).mylink = false ∧ k ∈ edges then
          { g k with used := (srcg k).used, timestamp := ts }
        else g k := by
  intro edges
  induction edges with
  | nil => intro g k; simp [sync_toward]
  | cons e rest ih =>
      intro g k
      have hstep : sync_toward srcg g (e :: rest) ts =
          sync_toward srcg (syncStep srcg ts g e) rest ts := rfl
      rw [hstep, ih]
      rw [syncStep_apply]
      by_cases hm : (g k).mylink = true
      · have h1 : ¬ (k = e ∧ (g e).mylink = false) := by
          rintro ⟨rfl, h2⟩; rw [hm] at h2; cases h2
        simp [h1, hm]
      · simp only [Bool.not_eq_true] at hm
        by_cases hk : k = e
        · subst hk
          simp only [hm, and_true, if_pos rfl, true_and]
          by_cases hr : k ∈ rest <;> simp [hr, hm, List.mem_cons]
        · simp only [hk, false_and, if_neg, not_false_iff]
          simp [hm, hk, List.mem_cons]

lemma ss_sync_toward_apply (srcg : Graph) (ts : Option ℚ) :
    ∀ (edges : List (ℕ × ℕ)) (g : Graph) (k : ℕ × ℕ),
      ss_sync_toward srcg g edges ts k =
        if (g k).mylink = false ∧ k ∈ edges then
          { g k with sync_learned := some (srcg k).used, timestamp := ts }
        else g k := by
  intro edges
  induction edges with
  | nil => intro g k; simp [ss_sync_toward]
  | cons e rest ih =>
      intro g k
      have hstep : ss_sync_toward srcg g (e :: rest) ts =
          ss_sync_toward srcg (ssSyncStep srcg ts g e) rest ts := rfl
      rw [hstep, ih]
      rw [ssSyncStep_apply]
      by_cases hm : (g k).mylink = true
      · have h1 : ¬ (k = e ∧ (g e).mylink = false) := by
          rintro ⟨rfl, h2⟩; rw [hm] at h2; cases h2
        simp [h1, hm]
      · simp only [Bool.not_eq_true] at hm
        by_cases hk : k = e
        · subst hk
          simp only [hm, and_true, if_pos rfl, true_and]
          by_cases hr : k ∈ rest <;> simp [hr, hm, List.mem_cons]
        · simp only [hk, false_and, if_neg, not_false_iff]
          simp [hm, hk, List.mem_cons]

/-! ### C5, C6: frame and idempotence of sync -/

/-- C5: for every pair of controller views, edge list and timestep, a sync
from the source view into the destination view leaves every edge the
destination marks as its own (`mylink`) completely unchanged — `used`,
`timestamp` and `sync_learned` included — for both the base LinkBalancer
sync and the separate-state sync. -/
theorem sync_preserves_peer_local_edges (srcg dstg : Graph) (edges : List (ℕ × ℕ))
    (ts : Option ℚ) (k : ℕ × ℕ) (h : (dstg k).mylink = true) :
    sync_toward srcg dstg edges ts k = dstg k ∧
    ss_sync_toward srcg dstg edges ts k = dstg k := by
  rw [sync_toward_apply, ss_sync_toward_apply]
  constructor <;> · rw [if_neg]; rintro ⟨h2, _⟩; rw [h] at h2; cases h2

/-- Concrete instance of `sync_preserves_peer_local_edges`: the destination
view owns edge `(0,1)` and a sync over `[(0,1),(1,2)]` leaves it intact. -/
def wSrcG : Graph := fun _ => ⟨3, 10, false, none, none⟩

/-- Destination view for the sync witnesses: `(0,1)` is its own link. -/
def wDstG : Graph := fun k =>
  if k = (0, 1) then ⟨7, 10, true, none, none⟩ else ⟨0, 10, false, none, none⟩

/-- Witness for C5 at a concrete source view, destination view and edge. -/
theorem sync_preserves_peer_local_edges_witness :
    (wDstG (0, 1)).mylink = true ∧
    (sync_toward wSrcG wDstG [(0, 1), (1, 2)] (some 4) (0, 1) = wDstG (0, 1) ∧
     ss_sync_toward wSrcG wDstG [(0, 1), (1, 2)] (some 4) (0, 1) = wDstG (0, 1)) :=
  ⟨by decide,
   sync_preserves_peer_local_edges wSrcG wDstG [(0, 1), (1, 2)] (some 4) (0, 1)
     (by decide)⟩

/-- C6: the base `sync_toward` is idempotent — with the source view
unchanged, pushing the same edges twice leaves the destination view exactly
as pushing them once. -/
theorem sync_toward_idempotent (srcg dstg : Graph) (edges : List (ℕ × ℕ))
    (ts : Option ℚ) :
    sync_toward srcg (sync_toward srcg dstg edges ts) edges ts =
      sync_toward srcg dstg edges ts := by
  funext k
  rw [sync_toward_apply srcg ts edges (sync_toward srcg dstg edges ts) k]
  rw [sync_toward_apply srcg ts edges dstg k]
  by_cases hm : (dstg k).mylink = true
  · have h1 : ¬ ((dstg k).mylink = false ∧ k ∈ edges) := by
      rintro ⟨h2, _⟩; rw [hm] at h2; cases h2
    simp [h1]
  · simp only [Bool.not_eq_true] at hm
    by_cases hk : k ∈ edges
    · simp [hm, hk]
    · simp [hm, hk]

/-! ### C7: the sync policy of the simulation loop -/

/-- C7: the simulation loop's sync policy is the three-way distinction.
`sync_period == 0` fires a round at every arriving request's tick (leaving
`last_sync` alone); `sync_period == p > 0` fires exactly when
`arr_time - last_sync >= p` and then rewinds `last_sync` to
`arr_time - ((arr_time - last_sync) mod p)`, preserving phase; a `None`
`sync_period` never fires. -/
theorem sync_check_policy (ls arr : ℚ) :
    (0 ≤ arr - ls → sync_check (some 0) ls arr = (true, ls)) ∧
    (∀ p : ℚ, 0 < p →
       sync_check (some p) ls arr =
         if p ≤ arr - ls then (true, arr - pymod (arr - ls) p) else (false, ls)) ∧
    sync_check none ls arr = (false, ls) := by
  refine ⟨fun h => ?_, fun p hp => ?_, rfl⟩
  · simp [sync_check, h]
  · by_cases hc : p ≤ arr - ls <;> simp [sync_check, hc, hp]

/-- Witness for C7 at `last_sync = 1`, `arr_time = 3` and periods
`0`, `2` and `None`. -/
theorem sync_check_policy_witness :
    (0 ≤ (3 : ℚ) - 1 ∧ sync_check (some 0) 1 3 = (true, 1)) ∧
    (0 < (2 : ℚ) ∧ sync_check (some 2) 1 3 =
      if (2 : ℚ) ≤ 3 - 1 then (true, 3 - pymod (3 - 1) 2) else (false, 1)) ∧
    sync_check none 1 3 = (false, 1) :=
  ⟨⟨by norm_num, (sync_check_policy 1 3).1 (by norm_num)⟩,
   ⟨by norm_num, (sync_check_policy 1 3).2.1 2 (by norm_num)⟩,
   (sync_check_policy 1 3).2.2⟩

/-! ### C10: the random-choice controller does not touch its view -/

/-- C10: `RandomChoiceCtrl.handle_request` returns one of the candidate
server paths but reserves nothing: the controller state (graph view,
active-flow heap, `last_now`) is returned unchanged, and the selection is a
pure index draw — it does not inspect the allocator state at all, so no
feasibility check happens on the returned path. -/
theorem rc_handle_request_no_reservation (c : Ctrl) (sw k : ℕ)
    (h : c.srv_paths sw ≠ []) :
    (RC_handle_request c sw k).1 = c ∧
    (RC_handle_request c sw k).2 ∈ c.srv_paths sw ∧
    ∀ ra2 : RAState,
      (RC_handle_request { c with ra := ra2 } sw k).2 = (RC_handle_request c sw k).2 := by
  refine ⟨rfl, ?_, fun ra2 => rfl⟩
  have hlen : 0 < (c.srv_paths sw).length := List.length_pos.mpr h
  have hk : k % (c.srv_paths sw).length < (c.srv_paths sw).length :=
    Nat.mod_lt _ hlen
  show (c.srv_paths sw).getD (k % (c.srv_paths sw).length) [] ∈ c.srv_paths sw
  rw [List.getD_eq_getElem _ _ hk]
  exact List.getElem_mem hk

/-- Concrete controller for the C10 witness: two candidate paths, an empty
heap, and a view with every edge at `used = 0`, `capacity = 10`. -/
def wCtrl : Ctrl :=
  { ra := { graph := fun _ => ⟨0, 10, false, none, none⟩,
            active_flows := [], last_now := none },
    srv_paths := fun _ => [[0, 1], [2, 3, 1]] }

/-- Witness for C10 at the concrete controller, switch `1`, draw `3`. -/
theorem rc_handle_request_no_reservation_witness :
    wCtrl.srv_paths 1 ≠ [] ∧
    ((RC_handle_request wCtrl 1 3).1 = wCtrl ∧
     (RC_handle_request wCtrl 1 3).2 ∈ wCtrl.srv_paths 1 ∧
     ∀ ra2 : RAState,
       (RC_handle_request { wCtrl with ra := ra2 } 1 3).2 =
         (RC_handle_request wCtrl 1 3).2) :=
  ⟨by decide, rc_handle_request_no_reservation wCtrl 1 3 (by decide)⟩

/-! ### Allocator helper lemmas -/

lemma hpush_perm (f : AFlow) : ∀ l : List AFlow, (hpush f l).Perm (f :: l) := by
  intro l
  induction l with
  | nil => simp [hpush]
  | cons g rest ih =>
      unfold hpush
      by_cases hlt : f.time < g.time
      · simp [hlt]
      · simp only [hlt, if_neg, not_false_iff]
        exact (ih.cons g).trans (List.Perm.swap f g rest)

lemma addFold_apply (resources : ℚ) :
    ∀ (links : List (ℕ × ℕ)) (g : Graph) (k : ℕ × ℕ), links.Nodup →
      (links.foldl (addStep resources) g) k =
        if k ∈ links then { g k with used := (g k).used + resources } else g k := by
  intro links
  induction links with
  | nil => intro g k _; simp
  | cons e rest ih =>
      intro g k hnd
      have hnotmem : e ∉ rest := (List.nodup_cons.mp hnd).1
      have hndrest : rest.Nodup := (List.nodup_cons.mp hnd).2
      have hstep : (e :: rest).foldl (addStep resources) g =
          rest.foldl (addStep resources) (addStep resources g e) := rfl
      rw [hstep, ih _ k hndrest]
      by_cases hk : k = e
      · subst hk
        have hkr : k ∉ rest := hnotmem
        simp [hkr, addStep, updG, List.mem_cons]
      · have he : addStep resources g e k = g k := by
          simp [addStep, updG, hk]
        by_cases hr : k ∈ rest <;> simp [hr, hk, he, List.mem_cons]

lemma allocate_resources_eq (st : RAState) (path : List ℕ) (resources now duration : ℚ)
    (h0 : path ≠ []) (h1 : 0 < duration) (h2 : mono_ok st.last_now now = true) :
    allocate_resources st path resources now duration =
      if (linksOf path).any (overFull st.graph resources) then
        .ok { st with last_now := some now }
      else
        .ok { graph := (linksOf path).foldl (addStep resources) st.graph,
              active_flows := hpush (now + duration, path, resources) st.active_flows,
              last_now := some now } := by
  have h0' : ¬ path.length = 0 := by simpa [List.length_eq_zero] using h0
  have h1' : ¬ duration ≤ 0 := not_le.mpr h1
  simp [allocate_resources, h0', h1', h2]

/-! ### C1: the allocator is all-or-nothing -/

/-- C1 (amended): for a path with at least one edge that traverses no
directed edge twice, under the allocator's preconditions (positive duration,
monotone time): if some edge of the path would be oversubscribed the call is
a no-op on every edge and pushes nothing; otherwise every edge of the path
gains `resources`, all other edges are untouched, and exactly the entry
`(now + duration, path, resources)` is pushed onto the heap. -/
theorem allocate_all_or_nothing (st : RAState) (path : List ℕ)
    (resources now duration : ℚ) (hp : 2 ≤ path.length) (hd : 0 < duration)
    (hm : mono_ok st.last_now now = true) (hnd : (linksOf path).Nodup) :
    ((linksOf path).any (overFull st.graph resources) = true →
       allocate_resources st path resources now duration =
         .ok { st with last_now := some now }) ∧
    ((linksOf path).any (overFull st.graph resources) = false →
       ∃ st2, allocate_resources st path resources now duration = .ok st2 ∧
         (∀ k ∈ linksOf path, (st2.graph k).used = (st.graph k).used + resources) ∧
         (∀ k, k ∉ linksOf path → st2.graph k = st.graph k) ∧
         st2.active_flows.Perm ((now + duration, path, resources) :: st.active_flows) ∧
         st2.last_now = some now) := by
  have h0 : path ≠ [] := by
    intro h; subst h; simp at hp
  rw [allocate_resources_eq st path resources now duration h0 hd hm]
  constructor
  · intro hover; simp [hover]
  · intro hover
    refine ⟨{ graph := (linksOf path).foldl (addStep resources) st.graph,
              active_flows := hpush (now + duration, path, resources) st.active_flows,
              last_now := some now }, by simp [hover], ?_, ?_, ?_, rfl⟩
    · intro k hk
      show ((linksOf path).foldl (addStep resources) st.graph k).used = _
      rw [addFold_apply resources (linksOf path) st.graph k hnd, if_pos hk]
    · intro k hk
      show (linksOf path).foldl (addStep resources) st.graph k = _
      rw [addFold_apply resources (linksOf path) st.graph k hnd, if_neg hk]
    · exact hpush_perm _ _

/-- A fresh allocator state: every edge at `used = 0`, `capacity = 10`; empty
heap; no time seen yet. -/
def demoSt : RAState :=
  { graph := fun _ => ⟨0, 10, false, none, none⟩, active_flows := [], last_now := none }

/-- Counterexample to C1 as frozen: the path `[0, 1, 0, 1]` traverses the
directed edge `(0, 1)` twice.  No edge of the path has
`used + size > capacity` (`0 + 6 <= 10`), yet the commit adds `6` twice so
edge `(0, 1)` ends at `12`, not at `used + size = 6` — and is in fact
oversubscribed. -/
theorem allocate_repeated_edge_cex :
    (linksOf [0, 1, 0, 1]).any (overFull demoSt.graph 6) = false ∧
    (allocate_resources demoSt [0, 1, 0, 1] 6 0 1).toOption.map
      (fun st2 => (st2.graph (0, 1)).used) = some 12 ∧
    (12 : ℚ) ≠ 0 + 6 := by
  refine ⟨?_, ?_, by norm_num⟩
  · norm_num [linksOf, overFull, demoSt]
  · norm_num [allocate_resources, demoSt, linksOf, overFull, mono_ok, addStep, updG,
      hpush]
    exact ⟨_, rfl, rfl⟩

/-- Witness for the amended C1 at a concrete state and a simple two-edge
path: the feasible branch commits both edges, leaves edge `(5, 6)` alone and
pushes exactly the one heap entry. -/
theorem allocate_all_or_nothing_witness :
    ∃ st2, allocate_resources demoSt [0, 1, 2] 4 0 2 = .ok st2 ∧
      (st2.graph (0, 1)).used = (demoSt.graph (0, 1)).used + 4 ∧
      (st2.graph (1, 2)).used = (demoSt.graph (1, 2)).used + 4 ∧
      st2.graph (5, 6) = demoSt.graph (5, 6) ∧
      st2.active_flows.Perm ((0 + 2, [0, 1, 2], 4) :: demoSt.active_flows) := by
  obtain ⟨st2, heq, hin, hout, hperm, hlast⟩ :=
    (allocate_all_or_nothing demoSt [0, 1, 2] 4 0 2 (by decide) (by norm_num)
      (by decide) (by decide)).2 (by norm_num [linksOf, overFull, demoSt])
  exact ⟨st2, heq, hin (0, 1) (by decide), hin (1, 2) (by decide),
    hout (5, 6) (by decide), hperm⟩

/-! ### C9: the allocator's assertions -/

/-- Counterexample to C9 as frozen: a single-node path (zero edges) passes
`assert len(path) > 0`, is not rejected, and even pushes a heap entry. -/
theorem allocate_single_node_cex :
    (allocate_resources demoSt [7] 40 5 1).toOption.map (fun st2 => st2.active_flows)
      = some [(6, [7], 40)] := by
  norm_num [allocate_resources, demoSt, linksOf, mono_ok, hpush]
  exact ⟨_, rfl, rfl⟩

/-- C9 (amended): `allocate_resources` asserts `len(path) > 0` (at least one
node, not one edge) and `duration > 0`; a violating call fails the assertion
with the graph and heap untouched.  A single-node path, however, passes the
assertions: it changes no `used` value and pushes `(now + duration, path,
size)` onto the heap. -/
theorem allocate_assertions (st : RAState) (path : List ℕ) (resources now duration : ℚ) :
    (path = [] → allocate_resources st path resources now duration =
       .error "assert len(path) failed") ∧
    (path ≠ [] → duration ≤ 0 → allocate_resources st path resources now duration =
       .error "assert duration failed") ∧
    (∀ v : ℕ, path = [v] → 0 < duration → mono_ok st.last_now now = true →
       allocate_resources st path resources now duration =
         .ok { graph := st.graph,
               active_flows := hpush (now + duration, [v], resources) st.active_flows,
               last_now := some now }) := by
  refine ⟨fun h => ?_, fun h hd => ?_, fun v h hd hm => ?_⟩
  · subst h; rfl
  · have h0 : ¬ path.length = 0 := by simpa [List.length_eq_zero] using h
    simp [allocate_resources, h0, hd]
  · subst h
    rw [allocate_resources_eq st [v] resources now duration (by simp) hd hm]
    simp [linksOf]

/-- Witness for the amended C9: the two assertion failures and the
single-node acceptance at concrete inputs. -/
theorem allocate_assertions_witness :
    allocate_resources demoSt [] 1 0 1 = .error "assert len(path) failed" ∧
    allocate_resources demoSt [3] 1 0 0 = .error "assert duration failed" ∧
    allocate_resources demoSt [3] 1 0 1 =
      .ok { graph := demoSt.graph,
            active_flows := hpush (0 + 1, [3], 1) demoSt.active_flows,
            last_now := some 0 } :=
  ⟨(allocate_assertions demoSt [] 1 0 1).1 rfl,
   (allocate_assertions demoSt [3] 1 0 0).2.1 (by decide) (by norm_num),
   (allocate_assertions demoSt [3] 1 0 1).2.2 3 rfl (by norm_num) (by decide)⟩

/-! ### C4: freeing resources -/

/-- The condition under which `free_resources(now)` does not raise: time may
not regress, and a repeated call at the same instant must find no expired
flow at the heap head. -/
def free_ok (st : RAState) (now : ℚ) : Bool :=
  match st.last_now with
  | none => true
  | some ln => decide (ln ≤ now) && (decide (ln < now) || !(headExpired st.active_flows now))

lemma subFold_nonneg (r : ℚ) :
    ∀ (links : List (ℕ × ℕ)) (g : Graph), (∀ k, 0 ≤ (g k).used) →
      ∀ k, 0 ≤ ((links.foldl (subStep r) g) k).used := by
  intro links
  induction links with
  | nil => intro g hg k; exact hg k
  | cons e rest ih =>
      intro g hg k
      refine ih (subStep r g e) ?_ k
      intro k2
      by_cases hk : k2 = e
      · subst hk; simp [subStep, updG]
      · simpa [subStep, updG, hk] using hg k2

lemma freeFold_nonneg :
    ∀ (fl : List AFlow) (g : Graph), (∀ k, 0 ≤ (g k).used) →
      ∀ k, 0 ≤ ((fl.foldl freeFlow g) k).used := by
  intro fl
  induction fl with
  | nil => intro g hg k; exact hg k
  | cons f rest ih =>
      intro g hg k
      exact ih (freeFlow g f) (subFold_nonneg f.size (linksOf f.path) g hg) k

lemma popExpired_eq (now : ℚ) :
    ∀ (fl : List AFlow) (g : Graph),
      popExpired now fl g =
        ((fl.takeWhile (fun f => decide (f.time ≤ now))).foldl freeFlow g,
         fl.dropWhile (fun f => decide (f.time ≤ now))) := by
  intro fl
  induction fl with
  | nil => intro g; rfl
  | cons f rest ih =>
      intro g
      by_cases hf : f.time ≤ now
      · have hd : decide (f.time ≤ now) = true := decide_eq_true hf
        simp only [popExpired, if_pos hf, ih (freeFlow g f), List.takeWhile_cons,
          List.dropWhile_cons, hd]
        rfl
      · have hd : decide (f.time ≤ now) = false := decide_eq_false hf
        simp only [popExpired, if_neg hf, List.takeWhile_cons, List.dropWhile_cons, hd]
        rfl

lemma dropWhile_time_gt (now : ℚ) :
    ∀ fl : List AFlow, fl.Pairwise (fun a b => a.time ≤ b.time) →
      ∀ f ∈ fl.dropWhile (fun f => decide (f.time ≤ now)), now < f.time := by
  intro fl
  induction fl with
  | nil => intro _ f hf; simp at hf
  | cons a rest ih =>
      intro hp f hf
      obtain ⟨ha, hrest⟩ := List.pairwise_cons.mp hp
      by_cases hd : a.time ≤ now
      · rw [List.dropWhile_cons, if_pos (by simpa using hd)] at hf
        exact ih hrest f hf
      · rw [List.dropWhile_cons, if_neg (by simpa using hd)] at hf
        rcases List.mem_cons.mp hf with rfl | hfr
        · exact lt_of_not_le hd
        · exact lt_of_lt_of_le (lt_of_not_le hd) (ha f hfr)

/-- C4 (amended): under the code's time-monotonicity conditions
(`free_ok`), `free_resources(now)` succeeds and pops every flow whose
release time is `≤ now` from the (release-time-sorted) heap, applying the
clamped subtraction of its size along its path; afterwards `used ≥ 0` holds
on every edge (it held before the call), no expired flow remains on the
heap, and every unexpired flow is retained. -/
theorem free_resources_spec (st : RAState) (now : ℚ)
    (hs : st.active_flows.Pairwise (fun a b => a.time ≤ b.time))
    (hok : free_ok st now = true)
    (hnn : ∀ k, 0 ≤ (st.graph k).used) :
    ∃ st2, free_resources st now = .ok st2 ∧
      st2.graph =
        (st.active_flows.takeWhile (fun f => decide (f.time ≤ now))).foldl
          freeFlow st.graph ∧
      st2.active_flows = st.active_flows.dropWhile (fun f => decide (f.time ≤ now)) ∧
      (∀ k, 0 ≤ (st2.graph k).used) ∧
      (∀ f ∈ st2.active_flows, now < f.time) ∧
      (∀ f ∈ st.active_flows, now < f.time → f ∈ st2.active_flows) ∧
      st2.last_now = some now := by
  have hguards : free_resources st now =
      .ok { graph := (popExpired now st.active_flows st.graph).1,
            active_flows := (popExpired now st.active_flows st.graph).2,
            last_now := some now } := by
    match hln : st.last_now with
    | none => simp [free_resources, hln, mono_ok]
    | some ln =>
        rw [free_ok, hln] at hok
        simp only [Bool.and_eq_true, Bool.or_eq_true, decide_eq_true_eq,
          Bool.not_eq_true'] at hok
        obtain ⟨hle, hcase⟩ := hok
        have hguard1 : (decide (ln ≥ now) && headExpired st.active_flows now) = false := by
          rcases hcase with hlt | hhe
          · have : ¬ (ln ≥ now) := not_le.mpr hlt
            simp [this]
          · simp [hhe]
        simp [free_resources, hln, hguard1, mono_ok, hle]
  rw [hguards, popExpired_eq]
  refine ⟨_, rfl, rfl, rfl, ?_, ?_, ?_, rfl⟩
  · exact freeFold_nonneg _ st.graph hnn
  · exact dropWhile_time_gt now st.active_flows hs
  · intro f hf hft
    have hsplit := List.takeWhile_append_dropWhile
      (p := fun f : AFlow => decide (f.time ≤ now)) (l := st.active_flows)
    rw [← hsplit] at hf
    rcases List.mem_append.mp hf with htk | hdr
    · have := List.mem_takeWhile_imp htk
      simp only [decide_eq_true_eq] at this
      exact absurd this (not_le.mpr hft)
    · exact hdr

/-- Allocator state for the C4 counterexample: time already progressed to 5. -/
def regrSt : RAState :=
  { graph := fun _ => ⟨0, 10, false, none, none⟩, active_flows := [], last_now := some 5 }

/-- Counterexample to C4 as frozen: `free_resources` is not total — calling
it with `now = 3` after having seen time 5 raises (the
`_update_last_now` assertion), so the call fails. -/
theorem free_time_regression_cex :
    (free_resources regrSt 3).toOption.isNone = true := by
  norm_num [free_resources, regrSt, mono_ok, headExpired]
  rfl

/-- Heap and graph for the C4 witness: two expired flows (the second one
over-freeing edge `(0,1)`) and one live flow. -/
def freeSt : RAState :=
  { graph := fun k => if k = (0, 1) then ⟨9, 10, false, none, none⟩
                      else ⟨2, 10, false, none, none⟩,
    active_flows := [(1, [0, 1], 4), (3, [0, 1], 9), (7, [2, 3], 1)],
    last_now := some 0 }

/-- Witness for the amended C4: freeing at `now = 3` succeeds, clamps edge
`(0,1)` at zero (9 - 4 - 9 would be negative) and leaves exactly the
unexpired flow. -/
theorem free_resources_spec_witness :
    ∃ st2, free_resources freeSt 3 = .ok st2 ∧
      (st2.graph (0, 1)).used = 0 ∧
      st2.active_flows = [(7, [2, 3], 1)] ∧
      (∀ f ∈ st2.active_flows, (3 : ℚ) < f.time) := by
  have hnn : ∀ k, 0 ≤ (freeSt.graph k).used := by
    intro k
    by_cases hk : k = (0, 1) <;> simp [freeSt, hk]
  obtain ⟨st2, heq, hg, hfl, hnn2, hgt, hkeep, hlast⟩ :=
    free_resources_spec freeSt 3 (by norm_num [freeSt, AFlow.time])
      (by norm_num [free_ok, freeSt]) hnn
  refine ⟨st2, heq, ?_, ?_, hgt⟩
  · rw [hg]
    norm_num [freeSt, AFlow.time, AFlow.path, AFlow.size, freeFlow, linksOf,
      subStep, updG]
  · rw [hfl]
    norm_num [freeSt, AFlow.time]

/-! ### C3: find_best_path minimises the metric, ties broken by length -/

/-- The loop invariant of `find_best_path`: the accumulator holds a
candidate already seen whose stored pair is its metric, the metric is
minimal so far, and its length is minimal among the metric-tied
candidates. -/
def IsBestOver (g : Graph) (util : ℚ) (L : List (List ℕ)) (b : List ℕ × ℚ × ℕ) : Prop :=
  b.1 ∈ L ∧ compute_path_metric g b.1 util = b.2 ∧
  (∀ q ∈ L, b.2.1 ≤ (compute_path_metric g q util).1) ∧
  (∀ q ∈ L, (compute_path_metric g q util).1 = b.2.1 →
    b.2.2 ≤ (compute_path_metric g q util).2)

lemma fbpStep_isBest (g : Graph) (util : ℚ) (L : List (List ℕ))
    (b : List ℕ × ℚ × ℕ) (q : List ℕ) (hb : IsBestOver g util L b) :
    ∃ b2, fbpStep g util (some b) q = some b2 ∧ IsBestOver g util (L ++ [q]) b2 := by
  obtain ⟨hmem, hpm, hmin, htie⟩ := hb
  by_cases hlt : (compute_path_metric g q util).1 < b.2.1
  · refine ⟨(q, compute_path_metric g q util), by simp [fbpStep, hlt],
      List.mem_append_right _ (List.mem_singleton_self q), rfl, ?_, ?_⟩
    · intro x hx
      show (compute_path_metric g q util).1 ≤ (compute_path_metric g x util).1
      rcases List.mem_append.mp hx with hxL | hxq
      · exact le_of_lt (lt_of_lt_of_le hlt (hmin x hxL))
      · rw [List.mem_singleton.mp hxq]
    · intro x hx hxm
      show (compute_path_metric g q util).2 ≤ (compute_path_metric g x util).2
      have hxm2 : (compute_path_metric g x util).1 = (compute_path_metric g q util).1 :=
        hxm
      rcases List.mem_append.mp hx with hxL | hxq
      · exact absurd hxm2 (ne_of_gt (lt_of_lt_of_le hlt (hmin x hxL)))
      · rw [List.mem_singleton.mp hxq]
  · by_cases heq : (compute_path_metric g q util).1 = b.2.1 ∧
        (compute_path_metric g q util).2 < b.2.2
    · refine ⟨(q, compute_path_metric g q util), by simp [fbpStep, hlt, heq],
        List.mem_append_right _ (List.mem_singleton_self q), rfl, ?_, ?_⟩
      · intro x hx
        show (compute_path_metric g q util).1 ≤ (compute_path_metric g x util).1
        rcases List.mem_append.mp hx with hxL | hxq
        · rw [heq.1]; exact hmin x hxL
        · rw [List.mem_singleton.mp hxq]
      · intro x hx hxm
        show (compute_path_metric g q util).2 ≤ (compute_path_metric g x util).2
        have hxm2 : (compute_path_metric g x util).1 = (compute_path_metric g q util).1 :=
          hxm
        rcases List.mem_append.mp hx with hxL | hxq
        · exact le_of_lt (lt_of_lt_of_le heq.2 (htie x hxL (by rw [hxm2, heq.1])))
        · rw [List.mem_singleton.mp hxq]
    · refine ⟨b, by simp [fbpStep, hlt, heq], List.mem_append_left _ hmem, hpm, ?_, ?_⟩
      · intro x hx
        rcases List.mem_append.mp hx with hxL | hxq
        · exact hmin x hxL
        · rw [List.mem_singleton.mp hxq]; exact not_lt.mp hlt
      · intro x hx hxm
        rcases List.mem_append.mp hx with hxL | hxq
        · exact htie x hxL hxm
        · rw [List.mem_singleton.mp hxq] at hxm ⊢
          rcases not_and_or.mp heq with h1 | h2
          · exact absurd hxm h1
          · exact not_lt.mp h2

lemma fbpFold_isBest (g : Graph) (util : ℚ) :
    ∀ (M L : List (List ℕ)) (b : List ℕ × ℚ × ℕ), IsBestOver g util L b →
      ∃ b2, M.foldl (fbpStep g util) (some b) = some b2 ∧
        IsBestOver g util (L ++ M) b2 := by
  intro M
  induction M with
  | nil => intro L b hb; exact ⟨b, rfl, by simpa using hb⟩
  | cons q M2 ih =>
      intro L b hb
      obtain ⟨b1, hstep, hb1⟩ := fbpStep_isBest g util L b q hb
      obtain ⟨b2, hfold, hb2⟩ := ih (L ++ [q]) b1 hb1
      refine ⟨b2, ?_, by simpa [List.append_assoc] using hb2⟩
      show (q :: M2).foldl (fbpStep g util) (some b) = some b2
      rw [List.foldl_cons, hstep, hfold]

/-- C3: on a non-empty candidate list, `find_best_path` returns a candidate
whose path metric is minimal, and whose edge count is minimal among the
candidates tied at that minimal metric. -/
theorem find_best_path_minimal (g : Graph) (paths : List (List ℕ)) (util : ℚ)
    (hne : paths ≠ []) :
    ∃ bp bm, find_best_path g paths util = some (bp, bm) ∧ bp ∈ paths ∧
      bm = (compute_path_metric g bp util).1 ∧
      (∀ q ∈ paths, bm ≤ (compute_path_metric g q util).1) ∧
      (∀ q ∈ paths, (compute_path_metric g q util).1 = bm →
        (linksOf bp).length ≤ (linksOf q).length) := by
  match paths, hne with
  | p :: ps, _ =>
      have hinit : IsBestOver g util [p] (p, compute_path_metric g p util) :=
        ⟨List.mem_singleton_self p, rfl, by
          intro q hq; rw [List.mem_singleton.mp hq], by
          intro q hq _; rw [List.mem_singleton.mp hq]⟩
      obtain ⟨b2, hfold, hmem, hpm, hmin, htie⟩ :=
        fbpFold_isBest g util ps [p] (p, compute_path_metric g p util) hinit
      have hfold2 : (p :: ps).foldl (fbpStep g util) none = some b2 := by
        rw [List.foldl_cons]; exact hfold
      refine ⟨b2.1, b2.2.1, ?_, by simpa using hmem, ?_, ?_, ?_⟩
      · rw [find_best_path, hfold2]
      · rw [← hpm]
      · intro q hq; exact hmin q (by simpa using hq)
      · intro q hq hqm
        have h1 : (compute_path_metric g b2.1 util).2 = (linksOf b2.1).length := rfl
        have h2 : (compute_path_metric g q util).2 = (linksOf q).length := rfl
        rw [← h1, ← h2, hpm]
        exact htie q (by simpa using hq) hqm

/-- Controller view for the `find_best_path` witness: three candidate paths
with metrics `3/5`, `3/10` (length 2) and `3/10` (length 1). -/
def wgGraph : Graph := fun k =>
  if k = (0, 1) then ⟨5, 10, false, none, none⟩
  else if k = (2, 3) then ⟨1, 10, false, none, none⟩
  else if k = (3, 1) then ⟨2, 10, false, none, none⟩
  else if k = (4, 1) then ⟨2, 10, false, none, none⟩
  else ⟨0, 10, false, none, none⟩

/-- Witness for C3: on the concrete candidate list the returned path is the
metric-minimal one of shortest length, namely `[4, 1]` at metric `3/10`. -/
theorem find_best_path_minimal_witness :
    (([[0, 1], [2, 3, 1], [4, 1]] : List (List ℕ)) ≠ [] ∧
     ∃ bp bm, find_best_path wgGraph [[0, 1], [2, 3, 1], [4, 1]] 1 = some (bp, bm) ∧
       bp ∈ ([[0, 1], [2, 3, 1], [4, 1]] : List (List ℕ)) ∧
       bm = (compute_path_metric wgGraph bp 1).1 ∧
       (∀ q ∈ ([[0, 1], [2, 3, 1], [4, 1]] : List (List ℕ)),
         bm ≤ (compute_path_metric wgGraph q 1).1) ∧
       (∀ q ∈ ([[0, 1], [2, 3, 1], [4, 1]] : List (List ℕ)),
         (compute_path_metric wgGraph q 1).1 = bm →
           (linksOf bp).length ≤ (linksOf q).length)) ∧
    find_best_path wgGraph [[0, 1], [2, 3, 1], [4, 1]] 1 = some ([4, 1], 3 / 10) :=
  ⟨⟨by decide, find_best_path_minimal wgGraph [[0, 1], [2, 3, 1], [4, 1]] 1 (by decide)⟩,
   by norm_num [find_best_path, fbpStep, compute_path_metric, collectMetrics,
     linkMetric, linksOf, wgGraph]⟩

/-! ### C2: path metric truncation; infeasible paths are not excluded -/

lemma collectMetrics_eq (g : Graph) (util : ℚ) :
    ∀ links : List (ℕ × ℕ),
      collectMetrics g util links =
        (links.map (linkMetric g util)).takeWhile (fun m => decide (m ≤ 1)) := by
  intro links
  induction links with
  | nil => rfl
  | cons e rest ih =>
      by_cases h : 1 < linkMetric g util e
      · have hd : decide (linkMetric g util e ≤ 1) = false :=
          decide_eq_false (not_le.mpr h)
        simp [collectMetrics, h, List.takeWhile_cons, hd]
      · have hd : decide (linkMetric g util e ≤ 1) = true :=
          decide_eq_true (not_lt.mp h)
        simp [collectMetrics, h, List.takeWhile_cons, hd, ih]

lemma allocate_resources_isOk (st : RAState) (path : List ℕ)
    (resources now duration : ℚ) (h0 : path ≠ []) (h1 : 0 < duration)
    (h2 : mono_ok st.last_now now = true) :
    ∃ st2, allocate_resources st path resources now duration = .ok st2 := by
  rw [allocate_resources_eq st path resources now duration h0 h1 h2]
  by_cases h : (linksOf path).any (overFull st.graph resources) = true
  · simp [h]
  · simp [h]

lemma find_best_path_mem (g : Graph) (util : ℚ) (paths : List (List ℕ))
    (hne : paths ≠ []) :
    ∃ b, find_best_path g paths util = some b ∧ b.1 ∈ paths := by
  match paths, hne with
  | p :: ps, _ =>
      have hinit : IsBestOver g util [p] (p, compute_path_metric g p util) :=
        ⟨List.mem_singleton_self p, rfl, by
          intro q hq; rw [List.mem_singleton.mp hq], by
          intro q hq _; rw [List.mem_singleton.mp hq]⟩
      obtain ⟨b2, hfold, hmem, -, -, -⟩ :=
        fbpFold_isBest g util ps [p] (p, compute_path_metric g p util) hinit
      have hfold2 : (p :: ps).foldl (fbpStep g util) none = some b2 := by
        rw [List.foldl_cons]; exact hfold
      exact ⟨(b2.1, b2.2.1), by rw [find_best_path, hfold2], by simpa using hmem⟩

/-- C2 (amended): the path metric is computed left-to-right and is the max
of the link metrics `(used + size) / capacity` over the longest prefix of
edges whose metrics are all `≤ 1` (defaulting to `1` when that prefix is
empty); a link metric above `1` stops the scan, but the path stays in the
candidate set with this truncated metric.  `find_best_path` on a non-empty
candidate list always returns one of the candidates, and `handle_request`
returns it after attempting to allocate it in the controller's own view —
no request is dropped at path-selection time (oversubscription is caught
only by the allocator's silent no-op). -/
theorem path_metric_prefix_no_exclusion (g : Graph) (util : ℚ) :
    (∀ path : List ℕ,
       compute_path_metric g path util =
         (match ((linksOf path).map (linkMetric g util)).takeWhile
             (fun m => decide (m ≤ 1)) with
          | [] => (1 : ℚ)
          | m :: rest => rest.foldl max m,
          (linksOf path).length)) ∧
    (∀ paths : List (List ℕ), paths ≠ [] →
       ∃ pm, find_best_path g paths util = some pm ∧ pm.1 ∈ paths) ∧
    (∀ c : Ctrl, ∀ sw : ℕ, ∀ duration time_now : ℚ, c.ra.graph = g →
       c.srv_paths sw ≠ [] → (∀ p ∈ c.srv_paths sw, p ≠ []) →
       0 < duration → mono_ok c.ra.last_now time_now = true →
       ∃ c2 bp, LB_handle_request c sw util duration time_now = .ok (c2, bp) ∧
         bp ∈ c.srv_paths sw) := by
  refine ⟨fun path => ?_, fun paths hne => find_best_path_mem g util paths hne,
    fun c sw duration time_now hg hne hpne hd hm => ?_⟩
  · show (match collectMetrics g util (linksOf path) with
      | [] => (1 : ℚ)
      | m :: rest => rest.foldl max m, (linksOf path).length) = _
    rw [collectMetrics_eq]
  · obtain ⟨b, hfb, hbm⟩ := find_best_path_mem c.ra.graph util (c.srv_paths sw) hne
    have hbne : b.1 ≠ [] := hpne b.1 hbm
    have hlen : 0 < b.1.length := List.length_pos.mpr hbne
    obtain ⟨st2, halloc⟩ :=
      allocate_resources_isOk c.ra b.1 util time_now duration hbne hd hm
    refine ⟨{ c with ra := st2 }, b.1, ?_, hbm⟩
    show (match find_best_path c.ra.graph (c.srv_paths sw) util with
          | none => (Except.error "cannot unpack None" : Except String (Ctrl × List ℕ))
          | some bp =>
            if 0 < bp.1.length then
              match allocate_resources c.ra bp.1 util time_now duration with
              | .ok ra2 => .ok ({ c with ra := ra2 }, bp.1)
              | .error e => .error e
            else .ok (c, bp.1)) = .ok ({ c with ra := st2 }, b.1)
    rw [hfb]
    show (if 0 < b.1.length then
            match allocate_resources c.ra b.1 util time_now duration with
            | Except.ok ra2 => Except.ok ({ c with ra := ra2 }, b.1)
            | Except.error e => (Except.error e : Except String (Ctrl × List ℕ))
          else Except.ok (c, b.1)) = Except.ok ({ c with ra := st2 }, b.1)
    rw [if_pos hlen, halloc]

/-- Controller view for the C2 counterexample: edge `(0,1)` is nearly free,
edge `(1,2)` is already oversubscribed. -/
def cexGraph : Graph := fun k =>
  if k = (0, 1) then ⟨0, 10, false, none, none⟩
  else if k = (1, 2) then ⟨20, 10, false, none, none⟩
  else ⟨0, 10, false, none, none⟩

/-- Controller wrapping `cexGraph` whose only candidate path is the
infeasible `[0, 1, 2]`. -/
def cexCtrl : Ctrl :=
  { ra := { graph := cexGraph, active_flows := [], last_now := none },
    srv_paths := fun _ => [[0, 1, 2]] }

/-- Counterexample to C2 as frozen: on path `[0, 1, 2]` with size 5 the
second link's metric is `5/2 > 1`, so the claim says the path metric is
`max(1/2, 5/2) = 5/2` and the path is excluded; the code instead stops the
scan, reports metric `1/2`, keeps the path as a candidate, and
`handle_request` still returns it (no drop). -/
theorem path_metric_truncation_cex :
    linkMetric cexGraph 5 (1, 2) = 5 / 2 ∧ (1 : ℚ) < 5 / 2 ∧
    compute_path_metric cexGraph [0, 1, 2] 5 = (1 / 2, 2) ∧
    (1 / 2 : ℚ) ≠ max (1 / 2) (5 / 2) ∧
    find_best_path cexGraph [[0, 1, 2]] 5 = some ([0, 1, 2], 1 / 2) ∧
    (LB_handle_request cexCtrl 2 5 1 0).toOption.map Prod.snd = some [0, 1, 2] := by
  refine ⟨?_, by norm_num, ?_, by simp [max_def]; norm_num, ?_, ?_⟩
  · norm_num [linkMetric, cexGraph]
  · norm_num [compute_path_metric, collectMetrics, linkMetric, linksOf, cexGraph]
  · norm_num [find_best_path, fbpStep, compute_path_metric, collectMetrics,
      linkMetric, linksOf, cexGraph]
  · norm_num [LB_handle_request, find_best_path, fbpStep, compute_path_metric,
      collectMetrics, linkMetric, linksOf, cexCtrl, cexGraph, allocate_resources,
      mono_ok, overFull]
    exact ⟨_, rfl⟩

/-- Witness for the amended C2 at the concrete controller: the prefix
characterisation of the metric, the membership of the returned candidate,
and the successful `handle_request`. -/
theorem path_metric_prefix_no_exclusion_witness :
    (compute_path_metric cexGraph [0, 1, 2] 5 =
       (match ((linksOf [0, 1, 2]).map (linkMetric cexGraph 5)).takeWhile
           (fun m => decide (m ≤ 1)) with
        | [] => (1 : ℚ)
        | m :: rest => rest.foldl max m,
        (linksOf [0, 1, 2]).length)) ∧
    (∃ pm, find_best_path cexGraph [[0, 1, 2]] 5 = some pm ∧
       pm.1 ∈ ([[0, 1, 2]] : List (List ℕ))) ∧
    (∃ c2 bp, LB_handle_request cexCtrl 2 5 1 0 = .ok (c2, bp) ∧
       bp ∈ cexCtrl.srv_paths 2) :=
  ⟨(path_metric_prefix_no_exclusion cexGraph 5).1 [0, 1, 2],
   (path_metric_prefix_no_exclusion cexGraph 5).2.1 [[0, 1, 2]] (by decide),
   (path_metric_prefix_no_exclusion cexGraph 5).2.2 cexCtrl 2 1 0 rfl (by decide)
     (by decide) (by norm_num) (by decide)⟩

/-! ### C8: the RMSE metric and its zero case -/

lemma rmse_links_sq_eq (pairs : List (ℚ × ℚ)) :
    rmse_links_sq pairs =
      (pairs.map (fun cu =>
        (cu.2 - (pairs.map Prod.snd).sum / (pairs.map Prod.fst).sum * cu.1) ^ 2)).sum := by
  simp only [rmse_links_sq, sq_abs]

lemma rmse_links_sq_nonneg (pairs : List (ℚ × ℚ)) : 0 ≤ rmse_links_sq pairs := by
  rw [rmse_links_sq_eq]
  refine List.sum_nonneg ?_
  intro x hx
  obtain ⟨cu, -, rfl⟩ := List.mem_map.mp hx
  exact sq_nonneg _

/-- C8: `rmse_links` is the square root of the summed squared deviations
from the proportional fill `ρ · capacity`, and it is zero exactly when all
edges carry the same fill fraction `used / capacity` (capacities are
positive per the data model). -/
theorem rmse_links_zero_iff (pairs : List (ℚ × ℚ)) (hne : pairs ≠ [])
    (hcap : ∀ p ∈ pairs, 0 < p.1) :
    rmse_links pairs =
      Real.sqrt (((pairs.map (fun cu =>
        (cu.2 - (pairs.map Prod.snd).sum / (pairs.map Prod.fst).sum * cu.1) ^ 2)).sum :
          ℚ)) ∧
    (rmse_links pairs = 0 ↔ ∀ p ∈ pairs, ∀ q ∈ pairs, p.2 / p.1 = q.2 / q.1) := by
  set ρ : ℚ := (pairs.map Prod.snd).sum / (pairs.map Prod.fst).sum with hρ
  constructor
  · rw [rmse_links, rmse_links_sq_eq]
  · rw [rmse_links]
    rw [Real.sqrt_eq_zero']
    have hcast : ((rmse_links_sq pairs : ℚ) : ℝ) ≤ 0 ↔ rmse_links_sq pairs = 0 := by
      rw [← Rat.cast_zero, Rat.cast_le]
      exact ⟨fun h => le_antisymm h (rmse_links_sq_nonneg pairs),
             fun h => le_of_eq h⟩
    rw [hcast]
    have hterm : rmse_links_sq pairs = 0 ↔ ∀ p ∈ pairs, p.2 = ρ * p.1 := by
      rw [rmse_links_sq_eq]
      constructor
      · intro hsum p hp
        have hz : (p.2 - ρ * p.1) ^ 2 = 0 := by
          refine List.all_zero_of_le_zero_le_of_sum_eq_zero ?_ hsum ?_
          · intro x hx
            obtain ⟨cu, -, rfl⟩ := List.mem_map.mp hx
            exact sq_nonneg _
          · exact List.mem_map.mpr ⟨p, hp, rfl⟩
        have := sq_eq_zero_iff.mp hz
        linarith [this]
      · intro hall
        refine List.sum_eq_zero ?_
        intro x hx
        obtain ⟨cu, hcu, rfl⟩ := List.mem_map.mp hx
        rw [hall cu hcu]
        ring
    rw [hterm]
    have hfill : ∀ p ∈ pairs, (p.2 = ρ * p.1 ↔ p.2 / p.1 = ρ) := by
      intro p hp
      rw [div_eq_iff (ne_of_gt (hcap p hp))]
    constructor
    · intro hall p hp q hq
      rw [(hfill p hp).mp (hall p hp), (hfill q hq).mp (hall q hq)]
    · intro hpair
      match pairs, hne, hcap, hpair with
      | hd :: tl, _, hcap, hpair =>
          set f : ℚ := hd.2 / hd.1 with hf
          have hfx : ∀ p ∈ hd :: tl, p.2 / p.1 = f := by
            intro p hp
            exact hpair p hp hd (List.mem_cons_self hd tl)
          have hmul : ∀ p ∈ hd :: tl, p.2 = f * p.1 := by
            intro p hp
            rw [← div_eq_iff (ne_of_gt (hcap p hp))]
            exact hfx p hp
          have hsnd : ((hd :: tl).map Prod.snd).sum =
              f * ((hd :: tl).map Prod.fst).sum := by
            rw [← List.sum_map_mul_left]
            congr 1
            refine List.map_congr_left ?_
            intro p hp
            exact hmul p hp
          have hpos : 0 < ((hd :: tl).map Prod.fst).sum := by
            refine List.sum_pos _ ?_ (by simp)
            intro x hx
            obtain ⟨cu, hcu, rfl⟩ := List.mem_map.mp hx
            exact hcap cu hcu
          have hρf : ρ = f := by
            rw [hρ, hsnd, mul_div_assoc, div_self (ne_of_gt hpos), mul_one]
          intro p hp
          rw [hρf]
          exact hmul p hp

/-- Witness for C8: two edges `(capacity, used) = (10, 5)` and `(20, 10)`
share the fill fraction `1/2`, so the RMSE metric is zero. -/
theorem rmse_links_zero_iff_witness :
    (([((10 : ℚ), (5 : ℚ)), (20, 10)] : List (ℚ × ℚ)) ≠ [] ∧
     ∀ p ∈ ([((10 : ℚ), (5 : ℚ)), (20, 10)] : List (ℚ × ℚ)), 0 < p.1) ∧
    rmse_links [((10 : ℚ), (5 : ℚ)), (20, 10)] = 0 := by
  refine ⟨⟨by simp, ?_⟩, ?_⟩
  · intro p hp; fin_cases hp <;> norm_num
  · refine (rmse_links_zero_iff [((10 : ℚ), (5 : ℚ)), (20, 10)] (by simp) ?_).2.mpr ?_
    · intro p hp; fin_cases hp <;> norm_num
    · intro p hp q hq; fin_cases hp <;> fin_cases hq <;> norm_num
